import Mathlib

/-!
Shallow embedding of the BOM hierarchy application (`src/app.py`,
`src/oracle_utils.py`).

Strings are modelled as Lean `String` (lists of characters); Python's
`str.strip`, `str.replace(old, "")` and `str.lstrip("-")` are modelled
character-exactly on `List Char`.  Numeric columns (`Component Quantity`,
`Unit Cost`, `Extended Cost`, purchase prices) are modelled as exact
rationals `ℚ`; nullable columns (pandas `NaN`) are modelled as `Option`.
-/

namespace Rig

/-- Whitespace characters stripped by Python's `str.strip()` (the ASCII
ones; identifiers in this application are ASCII). -/
def pyIsSpace (c : Char) : Bool :=
  c == ' ' || c == '\t' || c == '\n' || c == '\r' || c == '\x0b' || c == '\x0c'

/-- Drop trailing characters satisfying `p` (the right-hand half of
Python's `str.strip`). -/
def dropTrailing (p : Char → Bool) (l : List Char) : List Char :=
  (l.reverse.dropWhile p).reverse

/-- Python `s.strip()` on the character list: drop leading and trailing
whitespace. -/
def pyStrip (l : List Char) : List Char :=
  dropTrailing pyIsSpace (l.dropWhile pyIsSpace)

/-- Python `s.replace("-  ", "")`: remove every occurrence of the
three-character marker (hyphen, space, space), scanning left to right,
non-overlapping, without rescanning the part already produced. -/
def removeMarker : List Char → List Char
  | '-' :: ' ' :: ' ' :: rest => removeMarker rest
  | c :: rest => c :: removeMarker rest
  | [] => []

/-- Does the list contain the three-character marker `'-'`, `' '`, `' '`
as a contiguous substring? -/
def hasMarker : List Char → Bool
  | '-' :: ' ' :: ' ' :: _ => true
  | _ :: rest => hasMarker rest
  | [] => false

/-- Character-list form of `normalize_component` (app.py line 21):
`comp.strip().replace("-  ", "").lstrip("-").strip()`. -/
def normalizeL (l : List Char) : List Char :=
  pyStrip ((removeMarker (pyStrip l)).dropWhile (fun c => c == '-'))

/-- `normalize_component` from app.py lines 20-21. -/
def normalize_component (s : String) : String :=
  String.mk (normalizeL s.data)

/-- Display label built in `recurse` (app.py line 46):
`'    ' * level + '-  ' + component` (the f-string prefix of `level`
copies of four spaces is `4 * level` spaces). -/
def displayComponent (level : Nat) (comp : String) : String :=
  String.mk (List.replicate (4 * level) ' ' ++ '-' :: ' ' :: ' ' :: comp.data)

/-- `estimate_percentage` from app.py lines 23-24, applied to the `B/M`
cell of a row.  A pandas cell that is missing (`NaN`, as on the synthetic
rollup rows, which are built without a `B/M` key) compares unequal to
every string, which `Option.none` models. -/
def estimate_percentage (bm : Option String) : String :=
  if bm == some "Make" then "8%" else if bm == some "Buy" then "15%" else ""

/-- One row of the flat BOM recordset handed to `build_bom_hierarchy`
(columns of `get_bom_structure` in oracle_utils.py).  `quantity` and
`unitCost` are nullable; `bmCode` is the raw make/buy code. -/
structure BomRow where
  level : Nat
  item : String
  component : String
  compDescription : String
  quantity : Option ℚ
  unitCost : Option ℚ
  bmCode : Option Int
deriving DecidableEq

/-- Pandas boolean test `column > 0`: `NaN > 0` is false. -/
def optPos : Option ℚ → Bool
  | some x => decide (0 < x)
  | none => false

/-- Row filter of app.py line 36:
`df[(df["Unit Cost"] > 0) & (df["Component Quantity"] > 0)]`. -/
def keepRow (r : BomRow) : Bool :=
  optPos r.unitCost && optPos r.quantity

/-- Make/buy mapping of app.py line 38:
`df["B/M"].map({1: "Make", 2: "Buy"}).fillna("Unknown")`. -/
def makeBuyStr (code : Option Int) : String :=
  if code == some 1 then "Make" else if code == some 2 then "Buy" else "Unknown"

/-- A surviving (filtered) row after app.py lines 36-38: quantity and
unit cost are known positive, `Extended Cost` has been added, and the
make/buy code has been mapped to its categorical string. -/
structure FRow where
  level : Nat
  item : String
  component : String
  compDescription : String
  quantity : ℚ
  unitCost : ℚ
  extendedCost : ℚ
  makeBuy : String
deriving DecidableEq

/-- Combined effect of app.py lines 36-38 on one row: keep it iff both
`Unit Cost > 0` and `Component Quantity > 0`; on kept rows set
`Extended Cost = Component Quantity * Unit Cost` and map the raw
make/buy code. -/
def toFRow (r : BomRow) : Option FRow :=
  if keepRow r then
    some { level := r.level, item := r.item, component := r.component,
           compDescription := r.compDescription,
           quantity := r.quantity.getD 0, unitCost := r.unitCost.getD 0,
           extendedCost := r.quantity.getD 0 * r.unitCost.getD 0,
           makeBuy := makeBuyStr r.bmCode }
  else none

/-- The filtered dataframe `df` of app.py lines 36-38. -/
def filterRows (rows : List BomRow) : List FRow := rows.filterMap toFRow

/-- One output row of `build_bom_hierarchy`.  `level` is the value of the
output `Level` column (the source row's `Level`, or `0` on the synthetic
rollup rows); `depth` is the recursion depth at which the row was emitted
(`0` for rollup rows) — in the code it is materialised only as the
indentation width of `Display Component`, and it is carried explicitly
here.  Fields that the rollup rows leave unset (pandas `NaN`/`None`) are
`Option`s. -/
structure HRow where
  depth : Nat
  level : Nat
  item : Option String
  component : String
  compDescription : String
  quantity : Option ℚ
  unitCost : ℚ
  extendedCost : ℚ
  makeBuy : Option String
  displayComponent : String
deriving DecidableEq

/-- Row emitted by `recurse` (app.py lines 44-47): a copy of the source
row with `Display Component` set from the current recursion depth. -/
def mkHRow (r : FRow) (level : Nat) : HRow :=
  { depth := level, level := r.level, item := some r.item,
    component := r.component, compDescription := r.compDescription,
    quantity := some r.quantity, unitCost := r.unitCost,
    extendedCost := r.extendedCost, makeBuy := some r.makeBuy,
    displayComponent := displayComponent level r.component }

/-- The synthetic rollup row of app.py lines 52-57 (`pseudo_row`): depth
0, sums of `Unit Cost` and `Extended Cost` over the filtered rows whose
`Item` equals the top assembly, no quantity, no `B/M` entry. -/
def pseudoRow (df : List FRow) (top : String) : HRow :=
  { depth := 0, level := 0, item := none, component := top,
    compDescription := "Top-Level Assembly", quantity := none,
    unitCost := ((df.filter (fun r => r.item == top)).map (fun r => r.unitCost)).sum,
    extendedCost := ((df.filter (fun r => r.item == top)).map (fun r => r.extendedCost)).sum,
    makeBuy := none, displayComponent := top }

/-- Structural-recursion encoding of the nested `recurse(parent, level)`
of app.py lines 42-49.  The Python recursion terminates because the
guard `level <= 2` bounds the call depth; here this bound is made
explicit as a fuel argument that is always `3 - level`, so that the
function reduces by structural recursion.  `recurse_eq` below recovers
the equation exactly as the source writes it. -/
def recurseAux (df : List FRow) : Nat → String → Nat → List HRow
  | fuel, parent, level =>
    (df.filter (fun r => r.item == parent)).flatMap (fun r =>
      mkHRow r level ::
        (if level ≤ 2 then
          (match fuel with
           | 0 => []
           | n + 1 => recurseAux df n r.component (level + 1))
         else []))

/-- The nested `recurse(parent, level)` of app.py lines 42-49: for each
filtered row whose `Item` equals `parent`, in original order, emit the
row at the current depth and, when `level <= 2`, expand its `Component`
at `level + 1`. -/
def recurse (df : List FRow) (parent : String) (level : Nat) : List HRow :=
  recurseAux df (3 - level) parent level

/-- Unfolding equation for `recurse`, in the exact shape of the source:
emit each child of `parent` at the current depth and, when
`level <= 2`, recurse into its component at `level + 1`.  The fuel
`3 - level` never runs out under the guard, so the encoding is faithful
on every argument. -/
theorem recurse_eq (df : List FRow) (parent : String) (level : Nat) :
    recurse df parent level =
      (df.filter (fun r => r.item == parent)).flatMap (fun r =>
        mkHRow r level :: (if level ≤ 2 then recurse df r.component (level + 1) else [])) := by
  by_cases h : level ≤ 2
  · have h3 : 3 - level = (2 - level) + 1 := by omega
    have h4 : 3 - (level + 1) = 2 - level := by omega
    rw [recurse, h3, recurseAux]
    simp only [h, if_true, recurse, h4]
  · rw [recurse, recurseAux]
    simp only [h, if_false]

/-- First-seen-order deduplication, as pandas `Series.unique()` returns
values in order of first appearance. -/
def uniqueAux : List String → List String → List String
  | [], _ => []
  | x :: xs, seen => if x ∈ seen then uniqueAux xs seen else x :: uniqueAux xs (x :: seen)

/-- Pandas `unique()` on a string column: distinct values in first-seen
order. -/
def uniqueFirstSeen (l : List String) : List String := uniqueAux l []

/-- Top assemblies of app.py line 39:
`df[df["Level"] == 1]["Item"].unique()` on the filtered dataframe. -/
def topItems (df : List FRow) : List String :=
  uniqueFirstSeen ((df.filter (fun r => r.level == 1)).map (fun r => r.item))

/-- `build_bom_hierarchy` from app.py lines 35-61: filter the rows, then
for each top assembly in first-seen order append the synthetic rollup
row followed by the recursive expansion started at depth 1. -/
def build_bom_hierarchy (rows : List BomRow) : List HRow :=
  let df := filterRows rows
  (topItems df).flatMap (fun top => pseudoRow df top :: recurse df top 1)

/-- One purchase record returned by `get_latest_purchase_orders`
(oracle_utils.py lines 73-106): purchase order number, last receipt
date, last unit price, vendor. -/
structure PoRec where
  poNumber : String
  receiptDate : String
  unitPrice : ℚ
  vendor : String
deriving DecidableEq

/-- A BOM row with its up-to-three attached purchase-order triples
(columns `PO i`, `PO Date i`, `Unit Price i`, app.py lines 113-131).
A slot that is never written keeps its initialised empty value, modelled
as `none`. -/
structure EnrichedRow where
  base : BomRow
  po1 : Option PoRec
  po2 : Option PoRec
  po3 : Option PoRec
deriving DecidableEq

/-- Enrichment of one row by the search handler (app.py lines 123-131):
look up the purchase records for the row's normalized component and fill
slots 1, 2, 3 in resolved order; slots beyond the returned records stay
empty.  The per-identifier dictionary `po_info_dict` caches the resolver
call; its value for the row's key is exactly
`resolver (normalize_component component)`. -/
def enrichRow (resolver : String → List PoRec) (r : BomRow) : EnrichedRow :=
  let pos := resolver (normalize_component r.component)
  { base := r, po1 := pos[0]?, po2 := pos[1]?, po3 := pos[2]? }

/-- Enrichment of the whole recordset (the `for i, row in df.iterrows()`
loop of app.py lines 123-131): each row is enriched independently. -/
def enrich (resolver : String → List PoRec) (rows : List BomRow) : List EnrichedRow :=
  rows.map (enrichRow resolver)

/-- Size bound for the bounded expansion: with `fuel` remaining levels
over a filtered set of `L` rows, at most `L + L*(L + L*(...))` rows come
out (a geometric bound, `fuel + 1` factors). -/
def expBound (L : Nat) : Nat → Nat
  | 0 => L
  | n + 1 => L + L * expBound L n

/-- Top assemblies as the specification's words describe them (§4.4 step
1): the distinct values of the COMPONENT column over filtered rows with
`level == 1`.  The code (app.py line 39) instead reads the ITEM column;
compare `topItems`. -/
def specTopAssemblies (df : List FRow) : List String :=
  uniqueFirstSeen ((df.filter (fun r => r.level == 1)).map (fun r => r.component))

/-- One level-1 edge A → B, surviving the filter.  On this single-row
input the Item and Component columns of the level-1 rows differ, so the
two candidate readings of "top assemblies" disagree. -/
def c1exRow : BomRow :=
  { level := 1, item := "A", component := "B", compDescription := "part b",
    quantity := some 1, unitCost := some 1, bmCode := some 1 }

/-- A four-level chain A → B → C → D → E (one edge per level), every row
surviving the filter.  The expansion stops after emitting the depth-3
row for D; E is never emitted. -/
def chainRows : List BomRow :=
  [ { level := 1, item := "A", component := "B", compDescription := "",
      quantity := some 1, unitCost := some 1, bmCode := some 1 },
    { level := 2, item := "B", component := "C", compDescription := "",
      quantity := some 1, unitCost := some 1, bmCode := some 1 },
    { level := 3, item := "C", component := "D", compDescription := "",
      quantity := some 1, unitCost := some 1, bmCode := some 1 },
    { level := 4, item := "D", component := "E", compDescription := "",
      quantity := some 1, unitCost := some 1, bmCode := some 1 } ]

/-- A two-row cyclic BOM: A → B and B → A. -/
def cycleRows : List BomRow :=
  [ { level := 1, item := "A", component := "B", compDescription := "",
      quantity := some 1, unitCost := some 1, bmCode := some 1 },
    { level := 2, item := "B", component := "A", compDescription := "",
      quantity := some 1, unitCost := some 1, bmCode := some 1 } ]

/-- Scenario of spec §8: top assembly A, children B (qty 2, cost 10,
Make) and C (qty 1, cost 5, Buy). -/
def rowB : BomRow :=
  { level := 1, item := "A", component := "B", compDescription := "part b",
    quantity := some 2, unitCost := some 10, bmCode := some 1 }

/-- Second child of the §8 scenario. -/
def rowC : BomRow :=
  { level := 1, item := "A", component := "C", compDescription := "part c",
    quantity := some 1, unitCost := some 5, bmCode := some 2 }

/-- The §8 scenario rowset. -/
def scenarioRows : List BomRow := [rowB, rowC]

/-- The filtered form of `rowB` (image of `toFRow`). -/
def frowB : FRow :=
  { level := 1, item := "A", component := "B", compDescription := "part b",
    quantity := 2, unitCost := 10, extendedCost := 2 * 10, makeBuy := "Make" }

/-! Lemmas about the identifier normalizer. -/

theorem normalize_component_data (s : String) :
    (normalize_component s).data = normalizeL s.data := rfl

theorem dropWhile_head_false {p : Char → Bool} :
    ∀ {l t : List Char} {a : Char}, l.dropWhile p = a :: t → p a = false := by
  intro l t a h
  induction l with
  | nil => simp at h
  | cons b l ih =>
    by_cases hb : p b
    · rw [List.dropWhile_cons_of_pos hb] at h
      exact ih h
    · rw [List.dropWhile_cons_of_neg hb] at h
      cases h
      simpa using hb

theorem dropWhile_idem (p : Char → Bool) (l : List Char) :
    (l.dropWhile p).dropWhile p = l.dropWhile p := by
  cases h : l.dropWhile p with
  | nil => simp
  | cons a t =>
    have ha : p a = false := dropWhile_head_false h
    simp [List.dropWhile_cons, ha]

theorem dropTrailing_idem (p : Char → Bool) (l : List Char) :
    dropTrailing p (dropTrailing p l) = dropTrailing p l := by
  simp [dropTrailing, dropWhile_idem]

theorem dropWhile_dropTrailing_dropWhile (p : Char → Bool) (l : List Char) :
    (dropTrailing p (l.dropWhile p)).dropWhile p = dropTrailing p (l.dropWhile p) := by
  cases h : dropTrailing p (l.dropWhile p) with
  | nil => simp
  | cons a t =>
    have h5 : (l.dropWhile p).reverse.dropWhile p = t.reverse ++ [a] := by
      have h4 := congrArg List.reverse h
      simpa [dropTrailing] using h4
    have h6 : (l.dropWhile p).reverse =
        (l.dropWhile p).reverse.takeWhile p ++ (t.reverse ++ [a]) := by
      rw [← h5, List.takeWhile_append_dropWhile]
    have h7 : l.dropWhile p = a :: (t ++ ((l.dropWhile p).reverse.takeWhile p).reverse) := by
      have h8 := congrArg List.reverse h6
      simpa [List.reverse_append] using h8
    have ha : p a = false := dropWhile_head_false h7
    simp [List.dropWhile_cons, ha]

theorem pyStrip_idem (l : List Char) : pyStrip (pyStrip l) = pyStrip l := by
  rw [pyStrip, pyStrip, dropWhile_dropTrailing_dropWhile, dropTrailing_idem]

theorem dropWhile_self_or_lt (p : Char → Bool) (l : List Char) :
    l.dropWhile p = l ∨ (l.dropWhile p).length < l.length := by
  cases l with
  | nil => left; rfl
  | cons a t =>
    by_cases ha : p a
    · right
      rw [List.dropWhile_cons_of_pos ha]
      have := (List.dropWhile_sublist (l := t) p).length_le
      simpa using Nat.lt_succ_of_le this
    · left; exact List.dropWhile_cons_of_neg ha

theorem dropTrailing_length_le (p : Char → Bool) (l : List Char) :
    (dropTrailing p l).length ≤ l.length := by
  have := (List.dropWhile_sublist (l := l.reverse) p).length_le
  simpa [dropTrailing] using this

theorem dropTrailing_self_or_lt (p : Char → Bool) (l : List Char) :
    dropTrailing p l = l ∨ (dropTrailing p l).length < l.length := by
  rcases dropWhile_self_or_lt p l.reverse with h | h
  · left; simp [dropTrailing, h]
  · right; simpa [dropTrailing] using h

theorem pyStrip_length_le (l : List Char) : (pyStrip l).length ≤ l.length :=
  le_trans (dropTrailing_length_le _ _) (List.dropWhile_sublist _).length_le

theorem removeMarker_cons (c : Char) (rest : List Char)
    (h : ∀ t, c = '-' → rest = ' ' :: ' ' :: t → False) :
    removeMarker (c :: rest) = c :: removeMarker rest := by
  rw [removeMarker.eq_def]
  split
  · rename_i t heq
    rw [List.cons.injEq] at heq
    exact (h t heq.1 heq.2).elim
  · rename_i c1 r1 heq
    rw [List.cons.injEq] at heq
    rw [heq.1, heq.2]
  · rename_i heq
    exact absurd heq (by simp)

theorem hasMarker_cons (c : Char) (rest : List Char)
    (h : ∀ t, c = '-' → rest = ' ' :: ' ' :: t → False) :
    hasMarker (c :: rest) = hasMarker rest := by
  rw [hasMarker.eq_def]
  split
  · rename_i t heq
    rw [List.cons.injEq] at heq
    exact (h t heq.1 heq.2).elim
  · rename_i c1 r1 heq
    rw [List.cons.injEq] at heq
    rw [heq.2]
  · rename_i heq
    exact absurd heq (by simp)

theorem removeMarker_length_le : ∀ l : List Char, (removeMarker l).length ≤ l.length := by
  intro l
  induction l using removeMarker.induct with
  | case1 rest ih =>
    rw [show removeMarker ('-' :: ' ' :: ' ' :: rest) = removeMarker rest from rfl]
    simp only [List.length_cons]
    omega
  | case2 c rest h ih =>
    rw [removeMarker_cons c rest h]
    simpa using ih
  | case3 => simp [removeMarker]

theorem removeMarker_self_or_lt :
    ∀ l : List Char, removeMarker l = l ∨ (removeMarker l).length < l.length := by
  intro l
  induction l using removeMarker.induct with
  | case1 rest ih =>
    right
    rw [show removeMarker ('-' :: ' ' :: ' ' :: rest) = removeMarker rest from rfl]
    have := removeMarker_length_le rest
    simp only [List.length_cons]
    omega
  | case2 c rest h ih =>
    rw [removeMarker_cons c rest h]
    rcases ih with ih | ih
    · left; rw [ih]
    · right; simpa using ih
  | case3 => left; rfl

theorem removeMarker_of_not_hasMarker :
    ∀ l : List Char, hasMarker l = false → removeMarker l = l := by
  intro l
  induction l using removeMarker.induct with
  | case1 rest ih =>
    intro h
    rw [hasMarker] at h
    cases h
  | case2 c rest h ih =>
    intro hm
    rw [hasMarker_cons c rest h] at hm
    rw [removeMarker_cons c rest h, ih hm]
  | case3 => intro _; rfl

theorem pyStrip_self_or_lt (l : List Char) :
    pyStrip l = l ∨ (pyStrip l).length < l.length := by
  rcases dropWhile_self_or_lt pyIsSpace l with h | h
  · rcases dropTrailing_self_or_lt pyIsSpace (l.dropWhile pyIsSpace) with h2 | h2
    · left
      rw [pyStrip, h2, h]
    · right
      rw [pyStrip, h]
      rw [h] at h2
      exact h2
  · right
    exact Nat.lt_of_le_of_lt (dropTrailing_length_le _ _) h

/-- A fixed point of the normalizer is a fixed point of each of its four
stages: it carries no surrounding whitespace, no embedded marker
occurrence, and no leading hyphens. -/
theorem normalizeL_fixed {l : List Char} (h : normalizeL l = l) :
    pyStrip l = l ∧ removeMarker l = l ∧ l.dropWhile (fun c => c == '-') = l := by
  have hlen : (normalizeL l).length = l.length := by rw [h]
  have e1 := pyStrip_length_le l
  have e2 := removeMarker_length_le (pyStrip l)
  have e3 := (List.dropWhile_sublist (l := removeMarker (pyStrip l))
    (fun c => c == '-')).length_le
  have e4 := pyStrip_length_le ((removeMarker (pyStrip l)).dropWhile (fun c => c == '-'))
  have hnl : (normalizeL l).length =
      (pyStrip ((removeMarker (pyStrip l)).dropWhile (fun c => c == '-'))).length := rfl
  have q1 : (pyStrip l).length = l.length := by omega
  have k1 : pyStrip l = l := by
    rcases pyStrip_self_or_lt l with k | k
    · exact k
    · omega
  rw [k1] at e2 e3 e4 hnl
  have k2 : removeMarker l = l := by
    rcases removeMarker_self_or_lt l with k | k
    · exact k
    · omega
  rw [k2] at e3 e4 hnl
  have k3 : l.dropWhile (fun c => c == '-') = l := by
    rcases dropWhile_self_or_lt (fun c => c == '-') l with k | k
    · exact k
    · omega
  exact ⟨k1, k2, k3⟩

/-- When a list starts with a character for which `p` is false, or is
empty with respect to its head, `dropWhile` leaves it unchanged. -/
theorem dropWhile_eq_self_of_head (p : Char → Bool) (l : List Char)
    (h : ∀ a, l.head? = some a → p a = false) : l.dropWhile p = l := by
  cases l with
  | nil => rfl
  | cons a t => exact List.dropWhile_cons_of_neg (by simp [h a rfl])

/-- Idempotence of `normalizeL` at every point whose image is free of
the marker and of a leading hyphen. -/
theorem normalizeL_idem_of (l : List Char)
    (h1 : hasMarker (normalizeL l) = false)
    (h2 : ∀ a, (normalizeL l).head? = some a → a ≠ '-') :
    normalizeL (normalizeL l) = normalizeL l := by
  have hy1 : pyStrip (normalizeL l) = normalizeL l := by
    rw [normalizeL, pyStrip_idem]
  rw [normalizeL, hy1, removeMarker_of_not_hasMarker _ h1,
    dropWhile_eq_self_of_head _ _ (fun a ha => by simp [h2 a ha]), hy1]

theorem string_ext {a b : String} (h : a.data = b.data) : a = b := by
  cases a
  cases b
  exact congrArg String.mk h

theorem dropWhile_replicate (p : Char → Bool) (a : Char) (hp : p a = true) :
    ∀ (n : Nat) (l : List Char),
      (List.replicate n a ++ l).dropWhile p = l.dropWhile p := by
  intro n
  induction n with
  | zero => intro l; rfl
  | succ n ih =>
    intro l
    rw [List.replicate_succ, List.cons_append, List.dropWhile_cons_of_pos hp, ih]

/-- A fixed point of `pyStrip` is a fixed point of both of its halves. -/
theorem pyStrip_fixed {l : List Char} (h : pyStrip l = l) :
    l.dropWhile pyIsSpace = l ∧ dropTrailing pyIsSpace l = l := by
  have hlen : (pyStrip l).length = l.length := by rw [h]
  have e1 := (List.dropWhile_sublist (l := l) pyIsSpace).length_le
  have e2 := dropTrailing_length_le pyIsSpace (l.dropWhile pyIsSpace)
  have hh : (pyStrip l).length =
      (dropTrailing pyIsSpace (l.dropWhile pyIsSpace)).length := rfl
  have q1 : (l.dropWhile pyIsSpace).length = l.length := by omega
  have k1 : l.dropWhile pyIsSpace = l := by
    rcases dropWhile_self_or_lt pyIsSpace l with k | k
    · exact k
    · omega
  have k2 : dropTrailing pyIsSpace l = l := by
    rw [pyStrip, k1] at h
    exact h
  exact ⟨k1, k2⟩

theorem head_false_of_dropWhile_self {p : Char → Bool} {b : Char} {u : List Char}
    (h : (b :: u).dropWhile p = b :: u) : p b = false := by
  by_cases hb : p b
  · rw [List.dropWhile_cons_of_pos hb] at h
    have h2 := (List.dropWhile_sublist (l := u) p).length_le
    rw [h] at h2
    simp at h2
  · simpa using hb

/-- Normalizing the display label of a normalized identifier recovers
the identifier: the leading indentation is stripped, the marker removed,
and the identifier itself — being a fixed point — passes through the
remaining stages untouched. -/
theorem normalizeL_display (d : Nat) (c : List Char) (hfix : normalizeL c = c) :
    normalizeL (List.replicate (4 * d) ' ' ++ '-' :: ' ' :: ' ' :: c) = c := by
  obtain ⟨hs, hm, hh⟩ := normalizeL_fixed hfix
  have st1 : (List.replicate (4 * d) ' ' ++ '-' :: ' ' :: ' ' :: c).dropWhile pyIsSpace =
      '-' :: ' ' :: ' ' :: c := by
    rw [dropWhile_replicate pyIsSpace ' ' (by decide) (4 * d)]
    exact List.dropWhile_cons_of_neg (by decide)
  cases hc : c with
  | nil =>
    rw [hc] at st1
    have stp : pyStrip (List.replicate (4 * d) ' ' ++ ['-', ' ', ' ']) = ['-'] := by
      rw [pyStrip, st1]
      decide
    rw [normalizeL, stp]
    decide
  | cons a t =>
    have hdt : dropTrailing pyIsSpace c = c := (pyStrip_fixed hs).2
    have hr : c.reverse.dropWhile pyIsSpace = c.reverse := by
      have h9 := congrArg List.reverse hdt
      simpa [dropTrailing] using h9
    obtain ⟨b, u, hbu⟩ : ∃ b u, c.reverse = b :: u := by
      rw [hc]
      cases h10 : (a :: t).reverse with
      | nil => exact absurd (congrArg List.length h10) (by simp)
      | cons x y => exact ⟨x, y, rfl⟩
    have pb : pyIsSpace b = false := by
      rw [hbu] at hr
      exact head_false_of_dropWhile_self hr
    have st2 : dropTrailing pyIsSpace ('-' :: ' ' :: ' ' :: c) = '-' :: ' ' :: ' ' :: c := by
      have h11 : ('-' :: ' ' :: ' ' :: c).reverse = b :: (u ++ [' ', ' ', '-']) := by
        simp [hbu]
      rw [dropTrailing, h11, List.dropWhile_cons_of_neg (by simp [pb]), ← h11,
        List.reverse_reverse]
    rw [← hc]
    have stp : pyStrip (List.replicate (4 * d) ' ' ++ '-' :: ' ' :: ' ' :: c) =
        '-' :: ' ' :: ' ' :: c := by
      rw [pyStrip, st1]
      exact st2
    rw [normalizeL, stp,
      show removeMarker ('-' :: ' ' :: ' ' :: c) = removeMarker c from rfl, hm, hh, hs]

/-! Lemmas about the hierarchy builder. -/

theorem optPos_iff {o : Option ℚ} : optPos o = true ↔ ∃ x, o = some x ∧ 0 < x := by
  cases o <;> simp [optPos]

theorem toFRow_eq_some {r : BomRow} {f : FRow} (h : toFRow r = some f) :
    keepRow r = true ∧ f.level = r.level ∧ f.item = r.item ∧ f.component = r.component ∧
    f.quantity = r.quantity.getD 0 ∧ f.unitCost = r.unitCost.getD 0 ∧
    f.extendedCost = f.quantity * f.unitCost ∧ f.makeBuy = makeBuyStr r.bmCode := by
  rw [toFRow] at h
  split at h
  · rename_i hk
    cases h
    exact ⟨hk, rfl, rfl, rfl, rfl, rfl, rfl, rfl⟩
  · cases h

theorem makeBuyStr_cases (c : Option Int) :
    makeBuyStr c = "Make" ∨ makeBuyStr c = "Buy" ∨ makeBuyStr c = "Unknown" := by
  rw [makeBuyStr]
  split
  · exact Or.inl rfl
  · split
    · exact Or.inr (Or.inl rfl)
    · exact Or.inr (Or.inr rfl)

/-- Every filtered row has positive quantity and unit cost, an extended
cost equal to their product, and a categorical make/buy value. -/
theorem mem_filterRows {rows : List BomRow} {f : FRow} (h : f ∈ filterRows rows) :
    0 < f.unitCost ∧ 0 < f.quantity ∧ f.extendedCost = f.quantity * f.unitCost ∧
    (f.makeBuy = "Make" ∨ f.makeBuy = "Buy" ∨ f.makeBuy = "Unknown") := by
  rw [filterRows, List.mem_filterMap] at h
  obtain ⟨r, _, hr⟩ := h
  obtain ⟨hk, _, _, _, hq, hu, he, hmb⟩ := toFRow_eq_some hr
  rw [keepRow, Bool.and_eq_true] at hk
  obtain ⟨hu1, hq1⟩ := hk
  rw [optPos_iff] at hu1 hq1
  obtain ⟨x, hx, hx0⟩ := hu1
  obtain ⟨y, hy, hy0⟩ := hq1
  refine ⟨?_, ?_, he, ?_⟩
  · rw [hu, hx]
    exact hx0
  · rw [hq, hy]
    exact hy0
  · rw [hmb]
    exact makeBuyStr_cases r.bmCode

theorem filterMap_filter_eq {α β : Type} (f : α → Option β) (p : α → Bool)
    (hfp : ∀ a, p a = false → f a = none) :
    ∀ l : List α, (l.filter p).filterMap f = l.filterMap f := by
  intro l
  induction l with
  | nil => rfl
  | cons a t ih =>
    by_cases hp : p a
    · rw [List.filter_cons_of_pos hp]
      cases htf : f a with
      | none => rw [List.filterMap_cons_none htf, List.filterMap_cons_none htf, ih]
      | some b => rw [List.filterMap_cons_some htf, List.filterMap_cons_some htf, ih]
    · rw [List.filter_cons_of_neg hp,
        List.filterMap_cons_none (hfp a (by simpa using hp)), ih]

/-- Pre-filtering the input with the row filter is invisible to the
filtering stage itself. -/
theorem filterRows_filter_keep (rows : List BomRow) :
    filterRows (rows.filter keepRow) = filterRows rows :=
  filterMap_filter_eq toFRow keepRow
    (fun a ha => by rw [toFRow, if_neg (by simp [ha])]) rows

/-- Every row emitted by the bounded expansion comes from a filtered row
and carries a depth between the starting level and the starting level
plus the available fuel. -/
theorem mem_recurseAux (df : List FRow) :
    ∀ (fuel : Nat) (parent : String) (level : Nat) (r : HRow),
      r ∈ recurseAux df fuel parent level →
      ∃ f, f ∈ df ∧ ∃ e, level ≤ e ∧ e ≤ level + fuel ∧ r = mkHRow f e := by
  intro fuel
  induction fuel with
  | zero =>
    intro parent level r hr
    rw [recurseAux, List.mem_flatMap] at hr
    obtain ⟨f, hf, hm⟩ := hr
    rw [List.mem_cons] at hm
    rcases hm with hm | hm
    · exact ⟨f, (List.mem_filter.mp hf).1, level, le_refl _, by omega, hm⟩
    · split at hm <;> simp at hm
  | succ n ih =>
    intro parent level r hr
    rw [recurseAux, List.mem_flatMap] at hr
    obtain ⟨f, hf, hm⟩ := hr
    rw [List.mem_cons] at hm
    rcases hm with hm | hm
    · exact ⟨f, (List.mem_filter.mp hf).1, level, le_refl _, by omega, hm⟩
    · by_cases hl : level ≤ 2
      · rw [if_pos hl] at hm
        obtain ⟨g, hg, e, he1, he2, hre⟩ := ih f.component (level + 1) r hm
        exact ⟨g, hg, e, by omega, by omega, hre⟩
      · rw [if_neg hl] at hm
        simp at hm

theorem mem_recurse (df : List FRow) {parent : String} {level : Nat} {r : HRow}
    (h : r ∈ recurse df parent level) :
    ∃ f, f ∈ df ∧ ∃ e, level ≤ e ∧ e ≤ level + (3 - level) ∧ r = mkHRow f e :=
  mem_recurseAux df (3 - level) parent level r h

/-- Membership in the builder's output, by top assembly. -/
theorem mem_build {rows : List BomRow} {r : HRow} :
    r ∈ build_bom_hierarchy rows ↔
      ∃ t, t ∈ topItems (filterRows rows) ∧
        (r = pseudoRow (filterRows rows) t ∨ r ∈ recurse (filterRows rows) t 1) := by
  have hb : build_bom_hierarchy rows = (topItems (filterRows rows)).flatMap
      (fun top => pseudoRow (filterRows rows) top :: recurse (filterRows rows) top 1) := rfl
  rw [hb, List.mem_flatMap]
  simp only [List.mem_cons]

theorem flatMap_single {α β : Type} (l : List α) (g : α → β) :
    l.flatMap (fun a => [g a]) = l.map g := by
  induction l with
  | nil => rfl
  | cons a t ih => simp [ih]

theorem length_flatMap_le {α β : Type} (l : List α) (f : α → List β) (c : Nat)
    (h : ∀ a ∈ l, (f a).length ≤ c) : (l.flatMap f).length ≤ l.length * c := by
  induction l with
  | nil => simp
  | cons a t ih =>
    rw [List.flatMap_cons, List.length_append, List.length_cons]
    calc (f a).length + (t.flatMap f).length
        ≤ c + t.length * c :=
          Nat.add_le_add (h a (List.mem_cons_self a t))
            (ih (fun x hx => h x (List.mem_cons_of_mem a hx)))
      _ = (t.length + 1) * c := by rw [Nat.succ_mul, Nat.add_comm]

theorem recurseAux_length (df : List FRow) :
    ∀ (fuel : Nat) (parent : String) (level : Nat),
      (recurseAux df fuel parent level).length ≤ expBound df.length fuel := by
  intro fuel
  induction fuel with
  | zero =>
    intro parent level
    rw [recurseAux]
    have h1 := length_flatMap_le (df.filter (fun r => r.item == parent))
      (fun r => mkHRow r level ::
        (if level ≤ 2 then
          (match (0 : Nat) with
           | 0 => []
           | n + 1 => recurseAux df n r.component (level + 1))
         else [])) 1
      (fun a _ => by split <;> simp)
    calc _ ≤ (df.filter (fun r => r.item == parent)).length * 1 := h1
      _ = (df.filter (fun r => r.item == parent)).length := Nat.mul_one _
      _ ≤ df.length := List.length_filter_le _ _
  | succ n ih =>
    intro parent level
    rw [recurseAux]
    have h1 := length_flatMap_le (df.filter (fun r => r.item == parent))
      (fun r => mkHRow r level ::
        (if level ≤ 2 then
          (match (n + 1 : Nat) with
           | 0 => []
           | m + 1 => recurseAux df m r.component (level + 1))
         else [])) (1 + expBound df.length n)
      (fun a _ => by
        rw [List.length_cons]
        split
        · rw [show (match n + 1 with
              | 0 => ([] : List HRow)
              | m + 1 => recurseAux df m a.component (level + 1)) =
              recurseAux df n a.component (level + 1) from rfl]
          have := ih a.component (level + 1)
          omega
        · simp)
    calc _ ≤ (df.filter (fun r => r.item == parent)).length * (1 + expBound df.length n) := h1
      _ ≤ df.length * (1 + expBound df.length n) :=
          Nat.mul_le_mul_right _ (List.length_filter_le _ _)
      _ = expBound df.length (n + 1) := by
          rw [Nat.mul_add, Nat.mul_one, expBound]

/-- Case analysis of the percentage-estimate mapping over the values the
make/buy cell can actually hold. -/
theorem estimate_iff (b : Option String)
    (hb : b = none ∨ b = some "Make" ∨ b = some "Buy" ∨ b = some "Unknown") :
    (estimate_percentage b = "8%" ↔ b = some "Make") ∧
    (estimate_percentage b = "15%" ↔ b = some "Buy") ∧
    (estimate_percentage b = "" ↔ (b = some "Unknown" ∨ b = none)) := by
  rcases hb with h | h | h | h <;> subst h <;> decide

/-! Claim theorems. -/

/-- C6, counterexample: `normalize` is NOT idempotent on every string.
On `"- -b"` one pass yields `"-b"` (the trailing strip exposes a new
leading hyphen), and a second pass yields `"b"`. -/
theorem C6_counterexample :
    normalize_component (normalize_component "- -b") ≠ normalize_component "- -b" := by
  decide

/-- C6 (amended): `normalize(normalize x) == normalize x` holds for
every string `x` whose normalization neither contains the embedded
marker `"-  "` nor starts with a hyphen — the two escapes the
counterexamples exhibit (a removal can splice a new marker together,
and the final strip can expose a new leading hyphen). -/
theorem C6_normalize_idempotent (x : String)
    (h1 : hasMarker (normalize_component x).data = false)
    (h2 : (normalize_component x).data.head? ≠ some '-') :
    normalize_component (normalize_component x) = normalize_component x := by
  rw [normalize_component_data] at h1 h2
  apply string_ext
  rw [normalize_component_data, normalize_component_data]
  exact normalizeL_idem_of x.data h1
    (fun a ha hcontra => h2 (by rw [ha, hcontra]))

/-- C6, witness: the amended idempotence applied to `"-  Widget-123"`. -/
theorem C6_witness :
    hasMarker (normalize_component "-  Widget-123").data = false ∧
    (normalize_component "-  Widget-123").data.head? ≠ some '-' ∧
    normalize_component (normalize_component "-  Widget-123") =
      normalize_component "-  Widget-123" :=
  ⟨by decide, by decide, C6_normalize_idempotent "-  Widget-123" (by decide) (by decide)⟩

/-- C10: round-trip between the display label and the normalizer — for
every already-normalized component identifier `c` and every depth
`d ≥ 1`, normalizing the display label (`d` four-space indents, the
marker `"-  "`, then `c`) returns `c`. -/
theorem C10_roundtrip (c : String) (d : Nat)
    (hfix : normalize_component c = c) (_hd : 1 ≤ d) :
    normalize_component (displayComponent d c) = c := by
  have hfl : normalizeL c.data = c.data := by
    have h9 := congrArg String.data hfix
    exact h9
  apply string_ext
  show normalizeL (List.replicate (4 * d) ' ' ++ '-' :: ' ' :: ' ' :: c.data) = c.data
  exact normalizeL_display d c.data hfl

/-- C10, witness: the round-trip at `c = "Widget-123"`, depth 1. -/
theorem C10_witness :
    normalize_component "Widget-123" = "Widget-123" ∧ 1 ≤ 1 ∧
    normalize_component (displayComponent 1 "Widget-123") = "Widget-123" :=
  ⟨by decide, by decide, C10_roundtrip "Widget-123" 1 (by decide) (by decide)⟩

/-- C1, counterexample: on a single level-1 edge A → B the code's set of
top assemblies (and hence of depth-0 rollup rows) is `["A"]`, taken from
the ITEM column, while the claim's reading — distinct values of the
COMPONENT column of level-1 filtered rows — is `["B"]`. -/
theorem C1_counterexample :
    ((build_bom_hierarchy [c1exRow]).filter (fun r => r.depth == 0)).map
        (fun r => r.component) = ["A"] ∧
    specTopAssemblies (filterRows [c1exRow]) = ["B"] ∧
    ("A" : String) ≠ "B" := by
  decide

/-- C1 (amended): the set of top assemblies is exactly the set of
distinct values appearing in the ITEM (assembly) column of filtered rows
whose `level == 1`, in first-seen order; the depth-0 rows of the output,
in order, are precisely these values, and the whole output is, for each
top assembly in that order, one synthetic rollup row followed by its
recursive expansion. -/
theorem C1_top_assemblies (rows : List BomRow) :
    ((build_bom_hierarchy rows).filter (fun r => r.depth == 0)).map
        (fun r => r.component) = topItems (filterRows rows) ∧
    build_bom_hierarchy rows =
      (topItems (filterRows rows)).flatMap
        (fun t => pseudoRow (filterRows rows) t :: recurse (filterRows rows) t 1) := by
  constructor
  · have hb : build_bom_hierarchy rows = (topItems (filterRows rows)).flatMap
        (fun t => pseudoRow (filterRows rows) t :: recurse (filterRows rows) t 1) := rfl
    rw [hb]
    generalize topItems (filterRows rows) = ts
    induction ts with
    | nil => rfl
    | cons t ts ih =>
      rw [List.flatMap_cons, List.filter_append, List.map_append, ih]
      have h1 : (pseudoRow (filterRows rows) t :: recurse (filterRows rows) t 1).filter
          (fun r => r.depth == 0) = [pseudoRow (filterRows rows) t] := by
        rw [List.filter_cons_of_pos rfl, List.filter_eq_nil_iff.mpr]
        intro a ha
        obtain ⟨f, _, e, he1, _, hre⟩ := mem_recurse _ ha
        rw [hre]
        show ¬(e == 0) = true
        simp
        omega
      rw [h1]
      rfl
  · rfl

/-- C2, counterexample: on the four-level chain the expansion emits
depths 0,1,2,3 and stops — the depth-3 row for D is never expanded even
though D has a child E in the filtered set, and no depth-4 row exists —
contradicting the claimed `d <= 3` recursion guard and depth range
1..4. -/
theorem C2_counterexample :
    ((build_bom_hierarchy chainRows).map (fun r => (r.component, r.depth)) =
      [("A", 0), ("B", 1), ("C", 2), ("D", 3)]) ∧
    (filterRows chainRows).filter (fun r => r.item == "D") ≠ [] ∧
    (∀ r ∈ build_bom_hierarchy chainRows, r.depth ≠ 4) := by
  decide

/-- C2 (amended): a row emitted at depth `d` is expanded if and only if
`d <= 2`: consequently no output row has depth greater than 3, and the
expansion at depth 3 emits the direct children and never recurses. -/
theorem C2_depth_cap :
    (∀ (rows : List BomRow) (r : HRow), r ∈ build_bom_hierarchy rows → r.depth ≤ 3) ∧
    (∀ (df : List FRow) (p : String),
      recurse df p 3 = (df.filter (fun r => r.item == p)).map (fun r => mkHRow r 3)) := by
  constructor
  · intro rows r hr
    rcases mem_build.mp hr with ⟨t, _, hp | hrec⟩
    · rw [hp]
      show (0 : Nat) ≤ 3
      omega
    · obtain ⟨f, _, e, _, he2, hre⟩ := mem_recurse _ hrec
      rw [hre]
      show e ≤ 3
      omega
  · intro df p
    rw [recurse_eq]
    have hfun : (fun r : FRow => mkHRow r 3 ::
        (if 3 ≤ 2 then recurse df r.component (3 + 1) else [])) =
        fun r : FRow => [mkHRow r 3] := by
      funext r
      rw [if_neg (by omega)]
    rw [hfun, flatMap_single]

/-- C2, witness: the depth bound applied to the rollup row of the chain
input. -/
theorem C2_witness : (pseudoRow (filterRows chainRows) "A").depth ≤ 3 :=
  C2_depth_cap.1 chainRows _ (mem_build.mpr ⟨"A", by decide, Or.inl rfl⟩)

/-- C3: every depth-0 row of the output carries as `Unit Cost` the sum
of `Unit Cost` over all filtered rows whose Item equals its component
(its direct children), and as `Extended Cost` the analogous sum; deeper
descendants have a different Item value and are not part of the range of
either sum. -/
theorem C3_rollup_sums (rows : List BomRow) (r : HRow)
    (hr : r ∈ build_bom_hierarchy rows) (h0 : r.depth = 0) :
    r.unitCost = (((filterRows rows).filter (fun x => x.item == r.component)).map
        (fun x => x.unitCost)).sum ∧
    r.extendedCost = (((filterRows rows).filter (fun x => x.item == r.component)).map
        (fun x => x.extendedCost)).sum := by
  rcases mem_build.mp hr with ⟨t, _, hp | hrec⟩
  · rw [hp]
    exact ⟨rfl, rfl⟩
  · obtain ⟨f, _, e, he1, _, hre⟩ := mem_recurse _ hrec
    rw [hre] at h0
    have : e = 0 := h0
    omega

/-- C3, witness: the rollup sums at the rollup row of the §8 scenario
(top assembly A with children B and C). -/
theorem C3_witness :
    (pseudoRow (filterRows scenarioRows) "A").depth = 0 ∧
    (pseudoRow (filterRows scenarioRows) "A").unitCost =
      (((filterRows scenarioRows).filter
          (fun x => x.item == (pseudoRow (filterRows scenarioRows) "A").component)).map
        (fun x => x.unitCost)).sum :=
  ⟨rfl, (C3_rollup_sums scenarioRows _
    (mem_build.mpr ⟨"A", by decide, Or.inl rfl⟩) rfl).1⟩

/-- C4: rows failing the positivity filter are invisible — deleting them
from the input leaves the whole output (rollup sums included) unchanged,
and every non-synthetic output row has a positive unit cost and a
present, positive quantity. -/
theorem C4_filtering :
    (∀ rows : List BomRow,
      build_bom_hierarchy (rows.filter keepRow) = build_bom_hierarchy rows) ∧
    (∀ (rows : List BomRow) (r : HRow), r ∈ build_bom_hierarchy rows → 1 ≤ r.depth →
      0 < r.unitCost ∧ ∃ q, r.quantity = some q ∧ 0 < q) := by
  constructor
  · intro rows
    have hb : build_bom_hierarchy (rows.filter keepRow) =
        (topItems (filterRows (rows.filter keepRow))).flatMap
          (fun t => pseudoRow (filterRows (rows.filter keepRow)) t ::
            recurse (filterRows (rows.filter keepRow)) t 1) := rfl
    rw [hb, filterRows_filter_keep]
    rfl
  · intro rows r hr hd
    rcases mem_build.mp hr with ⟨t, _, hp | hrec⟩
    · rw [hp] at hd
      exact absurd (show (1 : Nat) ≤ 0 from hd) (by omega)
    · obtain ⟨f, hf, e, _, _, hre⟩ := mem_recurse _ hrec
      obtain ⟨hu, hq, _, _⟩ := mem_filterRows hf
      rw [hre]
      exact ⟨hu, f.quantity, rfl, hq⟩

/-- C4, witness: positivity of the first real row of the §8 scenario. -/
theorem C4_witness :
    0 < (mkHRow frowB 1).unitCost ∧
    ∃ q, (mkHRow frowB 1).quantity = some q ∧ 0 < q :=
  C4_filtering.2 scenarioRows (mkHRow frowB 1)
    (mem_build.mpr ⟨"A", by decide, Or.inr (List.mem_cons_self _ _)⟩) (by decide)

/-- C5: on every output row carrying a quantity (every non-synthetic
row), the extended cost is exactly quantity times unit cost, as
rationals — no rounding takes place inside the builder. -/
theorem C5_extended_cost (rows : List BomRow) (r : HRow) (q : ℚ)
    (hr : r ∈ build_bom_hierarchy rows) (hq : r.quantity = some q) :
    r.extendedCost = q * r.unitCost := by
  rcases mem_build.mp hr with ⟨t, _, hp | hrec⟩
  · rw [hp] at hq
    cases hq
  · obtain ⟨f, hf, e, _, _, hre⟩ := mem_recurse _ hrec
    obtain ⟨_, _, he, _⟩ := mem_filterRows hf
    rw [hre] at hq ⊢
    have hq2 : f.quantity = q := by
      have : some f.quantity = some q := hq
      exact Option.some.inj this
    show f.extendedCost = q * f.unitCost
    rw [← hq2]
    exact he

/-- C5, witness: the extended cost of row B of the §8 scenario (qty 2,
unit cost 10). -/
theorem C5_witness :
    (mkHRow frowB 1).quantity = some 2 ∧
    (mkHRow frowB 1).extendedCost = 2 * (mkHRow frowB 1).unitCost :=
  ⟨rfl, C5_extended_cost scenarioRows (mkHRow frowB 1) 2
    (mem_build.mpr ⟨"A", by decide, Or.inr (List.mem_cons_self _ _)⟩) rfl⟩

/-- C7: the builder is total and its output is finite on every input,
cyclic edges included: the output length is bounded by a polynomial in
the filtered input size, and on the concrete two-row cycle A → B → A the
expansion repeats only down to the depth cutoff and stops. -/
theorem C7_termination_bound :
    (∀ rows : List BomRow,
      (build_bom_hierarchy rows).length ≤
        (topItems (filterRows rows)).length *
          (1 + (filterRows rows).length + (filterRows rows).length ^ 2 +
            (filterRows rows).length ^ 3)) ∧
    (build_bom_hierarchy cycleRows).map (fun r => (r.component, r.depth)) =
      [("A", 0), ("B", 1), ("A", 2), ("B", 3)] := by
  constructor
  · intro rows
    have hb : build_bom_hierarchy rows = (topItems (filterRows rows)).flatMap
        (fun t => pseudoRow (filterRows rows) t :: recurse (filterRows rows) t 1) := rfl
    rw [hb]
    have h1 := length_flatMap_le (topItems (filterRows rows))
      (fun t => pseudoRow (filterRows rows) t :: recurse (filterRows rows) t 1)
      (1 + expBound (filterRows rows).length 2)
      (fun t _ => by
        rw [List.length_cons]
        have h2 := recurseAux_length (filterRows rows) 2 t 1
        show (recurseAux (filterRows rows) 2 t 1).length + 1 ≤ _
        omega)
    have h3 : 1 + expBound (filterRows rows).length 2 =
        1 + (filterRows rows).length + (filterRows rows).length ^ 2 +
          (filterRows rows).length ^ 3 := by
      simp [expBound]
      ring
    rw [h3] at h1
    exact h1
  · decide

/-- C8: a resolver miss leaves every one of the three purchase-order
slots of that row empty (never zero), raises nothing, and the remaining
rows are enriched independently (the output is the element-wise image of
the input). -/
theorem C8_enrichment (resolver : String → List PoRec) (rows : List BomRow) (r : BomRow)
    (hmiss : resolver (normalize_component r.component) = []) :
    (enrich resolver rows).length = rows.length ∧
    (∀ i : Nat, (enrich resolver rows)[i]? = (rows[i]?).map (enrichRow resolver)) ∧
    ((enrichRow resolver r).po1 = none ∧ (enrichRow resolver r).po2 = none ∧
      (enrichRow resolver r).po3 = none) := by
  refine ⟨List.length_map rows (enrichRow resolver),
    fun i => List.getElem?_map (enrichRow resolver) rows i, ?_, ?_, ?_⟩ <;>
    simp [enrichRow, hmiss]

/-- C8, witness: the always-empty resolver on the §8 scenario. -/
theorem C8_witness :
    (enrich (fun _ => []) scenarioRows).length = scenarioRows.length ∧
    (enrichRow (fun _ => ([] : List PoRec)) rowB).po1 = none :=
  ⟨(C8_enrichment (fun _ => []) scenarioRows rowB rfl).1,
   (C8_enrichment (fun _ => []) scenarioRows rowB rfl).2.2.1⟩

/-- C9: on every output row, the percentage estimate is `"8%"` exactly
when make/buy is Make, `"15%"` exactly when it is Buy, and empty exactly
otherwise — i.e. when make/buy is Unknown (unmapped raw code) or absent
(the synthetic rollup rows). -/
theorem C9_percentage (rows : List BomRow) (r : HRow)
    (hr : r ∈ build_bom_hierarchy rows) :
    (estimate_percentage r.makeBuy = "8%" ↔ r.makeBuy = some "Make") ∧
    (estimate_percentage r.makeBuy = "15%" ↔ r.makeBuy = some "Buy") ∧
    (estimate_percentage r.makeBuy = "" ↔
      (r.makeBuy = some "Unknown" ∨ r.makeBuy = none)) := by
  rcases mem_build.mp hr with ⟨t, _, hp | hrec⟩
  · rw [hp]
    exact estimate_iff _ (Or.inl rfl)
  · obtain ⟨f, hf, e, _, _, hre⟩ := mem_recurse _ hrec
    obtain ⟨_, _, _, hmb⟩ := mem_filterRows hf
    rw [hre]
    rcases hmb with h | h | h
    · exact estimate_iff _ (Or.inr (Or.inl (congrArg some h)))
    · exact estimate_iff _ (Or.inr (Or.inr (Or.inl (congrArg some h))))
    · exact estimate_iff _ (Or.inr (Or.inr (Or.inr (congrArg some h))))

/-- C9, witness: row B of the §8 scenario is Make and gets `"8%"`. -/
theorem C9_witness :
    (estimate_percentage (mkHRow frowB 1).makeBuy = "8%" ↔
      (mkHRow frowB 1).makeBuy = some "Make") ∧
    (estimate_percentage (mkHRow frowB 1).makeBuy = "15%" ↔
      (mkHRow frowB 1).makeBuy = some "Buy") ∧
    (estimate_percentage (mkHRow frowB 1).makeBuy = "" ↔
      ((mkHRow frowB 1).makeBuy = some "Unknown" ∨ (mkHRow frowB 1).makeBuy = none)) :=
  C9_percentage scenarioRows (mkHRow frowB 1)
    (mem_build.mpr ⟨"A", by decide, Or.inr (List.mem_cons_self _ _)⟩)

end Rig
